import Mathlib

/-!
Verification of the capstone-rs Cap'n Proto runtime core.

The definitions below shallowly embed the Rust source of the crate
(`src/lib.rs`) together with the message-layout and wire-codec engine
described by the design specification.  Machine integers are modelled as
`Nat` with explicit reduction modulo `2 ^ w` where wrap-around matters;
raw memory is modelled as lists of byte values; fallible operations
return `Except Error`.
-/

/-- `leBytes n v` is the little-endian byte decomposition of `v` into `n`
bytes, mirroring how an `n`-byte machine integer is laid out in memory. -/
def leBytes : Nat → Nat → List Nat
  | 0, _ => []
  | n + 1, v => v % 256 :: leBytes n (v / 256)

/-- `leVal bs` recombines a little-endian byte list into the integer it
denotes. -/
def leVal : List Nat → Nat
  | [] => 0
  | b :: bs => b + 256 * leVal bs

theorem leBytes_length (n v : Nat) : (leBytes n v).length = n := by
  induction n generalizing v with
  | zero => rfl
  | succ n ih => simp [leBytes, ih]

theorem leBytes_leVal (bs : List Nat) (h : ∀ b ∈ bs, b < 256) :
    leBytes bs.length (leVal bs) = bs := by
  induction bs with
  | nil => rfl
  | cons b bs ih =>
    have hb : b < 256 := h b (List.mem_cons_self b bs)
    have hmod : (b + 256 * leVal bs) % 256 = b := by
      omega
    have hdiv : (b + 256 * leVal bs) / 256 = leVal bs := by
      omega
    simp only [List.length_cons, leBytes, leVal, hmod, hdiv]
    rw [ih (fun x hx => h x (List.mem_cons_of_mem b hx))]

theorem leVal_leBytes (n v : Nat) (h : v < 256 ^ n) :
    leVal (leBytes n v) = v := by
  induction n generalizing v with
  | zero => simp at h; simp [leBytes, leVal, h]
  | succ n ih =>
    have hdiv : v / 256 < 256 ^ n := by
      rw [Nat.div_lt_iff_lt_mul (by norm_num)]
      calc v < 256 ^ (n + 1) := h
        _ = 256 ^ n * 256 := by ring
    simp only [leBytes, leVal, ih (v / 256) hdiv]
    omega

theorem leBytes_lt (n v : Nat) : ∀ b ∈ leBytes n v, b < 256 := by
  induction n generalizing v with
  | zero => simp [leBytes]
  | succ n ih =>
    intro b hb
    simp only [leBytes, List.mem_cons] at hb
    rcases hb with h | h
    · omega
    · exact ih (v / 256) b h

/-- Eight bytes of memory with opaque interior (Rust `struct Word(u64)`).
The `u64` payload is a natural number; genuine words keep it below
`2 ^ 64`. -/
structure Word where
  val : Nat
deriving DecidableEq, Repr

/-- `Word::words_to_bytes`: reinterpret a word slice as its underlying
bytes (little-endian, 8 bytes per word). -/
def Word.words_to_bytes : List Word → List Nat
  | [] => []
  | w :: ws => leBytes 8 w.val ++ Word.words_to_bytes ws

/-- `Word::bytes_to_words`: reinterpret a byte slice as a word slice of
length `bytes.len() / 8`; trailing bytes beyond the last whole word are
dropped from the word-typed view. -/
def Word.bytes_to_words : List Nat → List Word
  | b0 :: b1 :: b2 :: b3 :: b4 :: b5 :: b6 :: b7 :: rest =>
      Word.mk (leVal [b0, b1, b2, b3, b4, b5, b6, b7]) ::
        Word.bytes_to_words rest
  | _ => []

/-- `Word::allocate_zeroed_vec`: allocate `length` words and zero the
backing memory byte-for-byte (`write_bytes(p, 0u8, length * 8)`). -/
def Word.allocate_zeroed_vec (length : Nat) : List Word :=
  Word.bytes_to_words (List.replicate (length * 8) 0)

/-- Size of a message (Rust `struct MessageSize`), with the `u64` word
count and `u32` capability count as naturals kept below their moduli. -/
structure MessageSize where
  word_count : Nat
  cap_count : Nat
deriving DecidableEq, Repr

/-- `MessageSize::plus_eq`: componentwise addition with `u64`/`u32`
wrap-around semantics. -/
def MessageSize.plus_eq (a b : MessageSize) : MessageSize :=
  { word_count := (a.word_count + b.word_count) % 2 ^ 64,
    cap_count := (a.cap_count + b.cap_count) % 2 ^ 32 }

/-- An enum value or union discriminant not found in the schema
(Rust `struct NotInSchema(pub u16)`). -/
structure NotInSchema where
  val : Nat
deriving DecidableEq, Repr

/-- Rust `enum ErrorKind`. -/
inductive ErrorKind where
  | Failed
  | Overloaded
  | Disconnected
  | Unimplemented
deriving DecidableEq, Repr

/-- Rust `struct Error`. -/
structure Error where
  kind : ErrorKind
  reason : String
deriving DecidableEq, Repr

/-- `Error::new_decode_error`: builds an error with kind `Failed`. -/
def Error.new_decode_error (description : String) : Error :=
  { reason := description, kind := ErrorKind.Failed }

/-- `impl From<io::Error> for Error`: an I/O error (modelled by its
display string) converts to an `Error` of kind `Failed`. -/
def Error.from_io_error (displayed : String) : Error :=
  { reason := displayed, kind := ErrorKind.Failed }

/-- `impl From<NotInSchema> for Error`. -/
def Error.from_not_in_schema (e : NotInSchema) : Error :=
  Error.new_decode_error
    ("Enum value or union discriminant " ++ toString e.val ++
      " was not present in schema.")

/-- Rust `enum OutputSegments`: the single-segment case holds an array of
exactly one segment. -/
inductive OutputSegments where
  | SingleSegment (s : List Word)
  | MultiSegment (v : List (List Word))

/-- The `Deref` impl for `OutputSegments`: view either variant as a slice
of segments. -/
def OutputSegments.deref : OutputSegments → List (List Word)
  | OutputSegments.SingleSegment s => [s]
  | OutputSegments.MultiSegment v => v

theorem bytes_to_words_short (bs : List Nat) (h : bs.length < 8) :
    Word.bytes_to_words bs = [] := by
  rcases bs with _ | ⟨a0, _ | ⟨a1, _ | ⟨a2, _ | ⟨a3, _ | ⟨a4, _ | ⟨a5, _ | ⟨a6, _ | ⟨a7, r⟩⟩⟩⟩⟩⟩⟩⟩ <;>
    simp_all [Word.bytes_to_words] <;> omega

theorem bytes_to_words_length (bs : List Nat) :
    (Word.bytes_to_words bs).length = bs.length / 8 := by
  induction bs using Word.bytes_to_words.induct with
  | case1 b0 b1 b2 b3 b4 b5 b6 b7 rest ih =>
    simp only [Word.bytes_to_words, List.length_cons, ih]
    omega
  | case2 bs h =>
    have hlen : bs.length < 8 := by
      rcases bs with _ | ⟨a0, _ | ⟨a1, _ | ⟨a2, _ | ⟨a3, _ | ⟨a4, _ | ⟨a5, _ | ⟨a6, _ | ⟨a7, r⟩⟩⟩⟩⟩⟩⟩⟩
      · simp
      · simp
      · simp
      · simp
      · simp
      · simp
      · simp
      · simp
      · exact (h a0 a1 a2 a3 a4 a5 a6 a7 r rfl).elim
    rw [bytes_to_words_short bs hlen]
    simp [Nat.div_eq_of_lt hlen]

theorem bytes_to_words_eight (v : Nat) (rest : List Nat) :
    Word.bytes_to_words (leBytes 8 v ++ rest) =
      Word.mk (leVal (leBytes 8 v)) :: Word.bytes_to_words rest := rfl

theorem words_to_bytes_length (ws : List Word) :
    (Word.words_to_bytes ws).length = 8 * ws.length := by
  induction ws with
  | nil => rfl
  | cons w ws ih =>
    simp only [Word.words_to_bytes, List.length_append, leBytes_length, ih,
      List.length_cons]
    ring

theorem words_to_bytes_lt (ws : List Word) :
    ∀ b ∈ Word.words_to_bytes ws, b < 256 := by
  induction ws with
  | nil => simp [Word.words_to_bytes]
  | cons w ws ih =>
    intro b hb
    simp only [Word.words_to_bytes, List.mem_append] at hb
    rcases hb with h | h
    · exact leBytes_lt 8 w.val b h
    · exact ih b h

theorem bytes_words_id (ws : List Word) (h : ∀ w ∈ ws, w.val < 2 ^ 64) :
    Word.bytes_to_words (Word.words_to_bytes ws) = ws := by
  induction ws with
  | nil => rfl
  | cons w ws ih =>
    have hw : w.val < 256 ^ 8 := by
      have := h w (List.mem_cons_self w ws)
      norm_num
      omega
    simp only [Word.words_to_bytes, bytes_to_words_eight,
      leVal_leBytes 8 w.val hw]
    rw [ih (fun x hx => h x (List.mem_cons_of_mem w hx))]

theorem words_bytes_take (bs : List Nat) (h : ∀ b ∈ bs, b < 256) :
    Word.words_to_bytes (Word.bytes_to_words bs) =
      bs.take (8 * (bs.length / 8)) := by
  induction bs using Word.bytes_to_words.induct with
  | case1 b0 b1 b2 b3 b4 b5 b6 b7 rest ih =>
    have hfront : ∀ b ∈ [b0, b1, b2, b3, b4, b5, b6, b7], b < 256 := by
      intro b hb
      apply h
      simp only [List.mem_cons, List.not_mem_nil, or_false] at hb
      rcases hb with rfl|rfl|rfl|rfl|rfl|rfl|rfl|rfl <;> simp
    have hrest : ∀ b ∈ rest, b < 256 := by
      intro b hb
      apply h
      simp [hb]
    have hle : leBytes 8 (leVal [b0, b1, b2, b3, b4, b5, b6, b7]) =
        [b0, b1, b2, b3, b4, b5, b6, b7] :=
      leBytes_leVal [b0, b1, b2, b3, b4, b5, b6, b7] hfront
    have harith : 8 * ((rest.length + 1 + 1 + 1 + 1 + 1 + 1 + 1 + 1) / 8) =
        8 + 8 * (rest.length / 8) := by omega
    simp only [Word.bytes_to_words, Word.words_to_bytes, hle, ih hrest,
      List.length_cons, harith]
    simp [List.take_succ_cons, show ∀ k, 8 + k = k + 1 + 1 + 1 + 1 + 1 + 1 + 1 + 1 from by omega]
  | case2 bs hb =>
    have hlen : bs.length < 8 := by
      rcases bs with _ | ⟨a0, _ | ⟨a1, _ | ⟨a2, _ | ⟨a3, _ | ⟨a4, _ | ⟨a5, _ | ⟨a6, _ | ⟨a7, r⟩⟩⟩⟩⟩⟩⟩⟩
      · simp
      · simp
      · simp
      · simp
      · simp
      · simp
      · simp
      · simp
      · exact (hb a0 a1 a2 a3 a4 a5 a6 a7 r rfl).elim
    rw [bytes_to_words_short bs hlen]
    simp [Nat.div_eq_of_lt hlen, Word.words_to_bytes]

/-- C3: every `Error` value the core itself constructs has kind `Failed`:
`Error::new_decode_error`, the `From<io::Error>` conversion, and the
`From<NotInSchema>` conversion all produce kind `Failed`; none produces
`Disconnected` or `Unimplemented`. -/
theorem error_constructors_kind_failed :
    (∀ description : String,
        (Error.new_decode_error description).kind = ErrorKind.Failed) ∧
    (∀ displayed : String,
        (Error.from_io_error displayed).kind = ErrorKind.Failed) ∧
    (∀ e : NotInSchema,
        (Error.from_not_in_schema e).kind = ErrorKind.Failed) :=
  ⟨fun _ => rfl, fun _ => rfl, fun _ => rfl⟩

theorem allocate_zeroed_vec_eq (n : Nat) :
    Word.allocate_zeroed_vec n = List.replicate n (Word.mk 0) := by
  induction n with
  | zero => rfl
  | succ n ih =>
    have h8 : (n + 1) * 8 = 8 + n * 8 := by ring
    unfold Word.allocate_zeroed_vec at *
    rw [h8, List.replicate_add]
    show Word.mk (leVal (leBytes 8 0)) ::
        Word.bytes_to_words (List.replicate (n * 8) 0) = _
    rw [ih, List.replicate_succ]
    rfl

/-- C5: `Word::allocate_zeroed_vec(n)` returns exactly `n` words, each of
which is the all-zero word `Word(0)`; it equals collecting `n` repetitions
of `Word(0)`. -/
theorem allocate_zeroed_vec_spec (n : Nat) :
    Word.allocate_zeroed_vec n = List.replicate n (Word.mk 0) ∧
    (Word.allocate_zeroed_vec n).length = n ∧
    ∀ w ∈ Word.allocate_zeroed_vec n, w = Word.mk 0 := by
  refine ⟨allocate_zeroed_vec_eq n, ?_, ?_⟩
  · rw [allocate_zeroed_vec_eq n, List.length_replicate]
  · intro w hw
    rw [allocate_zeroed_vec_eq n] at hw
    exact List.eq_of_mem_replicate hw

/-- C6: byte/word reinterpretation round-trips: `words_to_bytes` yields
`8 * |w|` bytes and is inverted by `bytes_to_words`; on byte slices whose
length is a multiple of 8, `words_to_bytes` inverts `bytes_to_words`. -/
theorem word_byte_reinterpret_roundtrip :
    (∀ ws : List Word, (Word.words_to_bytes ws).length = 8 * ws.length) ∧
    (∀ ws : List Word, (∀ w ∈ ws, w.val < 2 ^ 64) →
        Word.bytes_to_words (Word.words_to_bytes ws) = ws) ∧
    (∀ bs : List Nat, (∀ b ∈ bs, b < 256) → 8 ∣ bs.length →
        Word.words_to_bytes (Word.bytes_to_words bs) = bs) := by
  refine ⟨words_to_bytes_length, bytes_words_id, ?_⟩
  intro bs hb hdvd
  rw [words_bytes_take bs hb, Nat.mul_div_cancel' hdvd, List.take_length]

theorem word_byte_reinterpret_roundtrip_witness :
    Word.bytes_to_words
        (Word.words_to_bytes [Word.mk 5, Word.mk 18446744073709551615]) =
      [Word.mk 5, Word.mk 18446744073709551615] ∧
    Word.words_to_bytes
        (Word.bytes_to_words [1, 2, 3, 4, 5, 6, 7, 8, 9, 10, 11, 12, 13, 14, 15, 16]) =
      [1, 2, 3, 4, 5, 6, 7, 8, 9, 10, 11, 12, 13, 14, 15, 16] :=
  ⟨word_byte_reinterpret_roundtrip.2.1 _ (by decide),
   word_byte_reinterpret_roundtrip.2.2 _ (by decide) (by decide)⟩

/-- C7: `Word::bytes_to_words` is total on every byte slice, returns
`floor(len / 8)` words, and the resulting word view covers exactly the
first `8 * floor(len / 8)` bytes; the byte tail is inaccessible. -/
theorem bytes_to_words_total_floor :
    (∀ bs : List Nat, (Word.bytes_to_words bs).length = bs.length / 8) ∧
    (∀ bs : List Nat, (∀ b ∈ bs, b < 256) →
        Word.words_to_bytes (Word.bytes_to_words bs) =
          bs.take (8 * (bs.length / 8))) :=
  ⟨bytes_to_words_length, words_bytes_take⟩

theorem bytes_to_words_total_floor_witness :
    (Word.bytes_to_words [1, 2, 3, 4, 5, 6, 7, 8, 9, 10, 11]).length = 1 ∧
    Word.words_to_bytes (Word.bytes_to_words [1, 2, 3, 4, 5, 6, 7, 8, 9, 10, 11]) =
      [1, 2, 3, 4, 5, 6, 7, 8] :=
  ⟨bytes_to_words_total_floor.1 [1, 2, 3, 4, 5, 6, 7, 8, 9, 10, 11],
   bytes_to_words_total_floor.2 [1, 2, 3, 4, 5, 6, 7, 8, 9, 10, 11] (by decide)⟩

theorem plus_eq_word_count (a b : MessageSize) :
    (MessageSize.plus_eq a b).word_count =
      (a.word_count + b.word_count) % 2 ^ 64 := rfl

theorem plus_eq_cap_count (a b : MessageSize) :
    (MessageSize.plus_eq a b).cap_count =
      (a.cap_count + b.cap_count) % 2 ^ 32 := rfl

theorem plus_eq_right_comm (b x y : MessageSize) :
    MessageSize.plus_eq (MessageSize.plus_eq b x) y =
      MessageSize.plus_eq (MessageSize.plus_eq b y) x := by
  unfold MessageSize.plus_eq
  simp only [MessageSize.mk.injEq]
  constructor
  · rw [Nat.mod_add_mod, Nat.mod_add_mod]
    ring_nf
  · rw [Nat.mod_add_mod, Nat.mod_add_mod]
    ring_nf

theorem foldl_plus_eq_formula (l : List MessageSize) :
    ∀ a : MessageSize, a.word_count < 2 ^ 64 → a.cap_count < 2 ^ 32 →
      List.foldl MessageSize.plus_eq a l =
        MessageSize.mk
          ((a.word_count + (l.map MessageSize.word_count).sum) % 2 ^ 64)
          ((a.cap_count + (l.map MessageSize.cap_count).sum) % 2 ^ 32) := by
  induction l with
  | nil =>
    intro a h1 h2
    obtain ⟨wc, cc⟩ := a
    simp only [List.foldl_nil, List.map_nil, List.sum_nil, Nat.add_zero,
      MessageSize.mk.injEq]
    exact ⟨(Nat.mod_eq_of_lt h1).symm, (Nat.mod_eq_of_lt h2).symm⟩
  | cons x t ih =>
    intro a h1 h2
    have hred1 : (MessageSize.plus_eq a x).word_count < 2 ^ 64 :=
      Nat.mod_lt _ (by norm_num)
    have hred2 : (MessageSize.plus_eq a x).cap_count < 2 ^ 32 :=
      Nat.mod_lt _ (by norm_num)
    simp only [List.foldl_cons, ih (MessageSize.plus_eq a x) hred1 hred2,
      plus_eq_word_count, plus_eq_cap_count, List.map_cons, List.sum_cons,
      Nat.mod_add_mod]
    congr 1 <;> ring_nf

/-- C8: `MessageSize::plus_eq` accumulates sizes componentwise with
`u64`/`u32` wrap-around, touching no other state, so folding `plus_eq`
over a collection sums word and capability counts. -/
theorem plus_eq_componentwise_sum :
    (∀ a b : MessageSize,
        MessageSize.plus_eq a b =
          MessageSize.mk ((a.word_count + b.word_count) % 2 ^ 64)
            ((a.cap_count + b.cap_count) % 2 ^ 32)) ∧
    (∀ l : List MessageSize,
        List.foldl MessageSize.plus_eq (MessageSize.mk 0 0) l =
          MessageSize.mk ((l.map MessageSize.word_count).sum % 2 ^ 64)
            ((l.map MessageSize.cap_count).sum % 2 ^ 32)) := by
  constructor
  · intro a b
    rfl
  · intro l
    have := foldl_plus_eq_formula l (MessageSize.mk 0 0) (by norm_num)
      (by norm_num)
    simpa using this

theorem foldl_plus_eq_perm {l1 l2 : List MessageSize} (p : l1.Perm l2) :
    ∀ init : MessageSize,
      List.foldl MessageSize.plus_eq init l1 =
        List.foldl MessageSize.plus_eq init l2 := by
  induction p with
  | nil => intro init; rfl
  | cons x _ ih =>
    intro init
    simp only [List.foldl_cons]
    exact ih _
  | swap x y l =>
    intro init
    simp only [List.foldl_cons, plus_eq_right_comm]
  | trans _ _ ih1 ih2 =>
    intro init
    rw [ih1 init, ih2 init]

/-- C10: `plus_eq` accumulation is a commutative monoid under wrapping
arithmetic: the zero size is an identity on in-range values, `plus_eq` is
commutative and associative, and folding is permutation-invariant. -/
theorem plus_eq_comm_monoid :
    (∀ a : MessageSize, a.word_count < 2 ^ 64 → a.cap_count < 2 ^ 32 →
        MessageSize.plus_eq a (MessageSize.mk 0 0) = a) ∧
    (∀ a b : MessageSize,
        MessageSize.plus_eq a b = MessageSize.plus_eq b a) ∧
    (∀ a b c : MessageSize,
        MessageSize.plus_eq (MessageSize.plus_eq a b) c =
          MessageSize.plus_eq a (MessageSize.plus_eq b c)) ∧
    (∀ (l1 l2 : List MessageSize) (init : MessageSize), l1.Perm l2 →
        List.foldl MessageSize.plus_eq init l1 =
          List.foldl MessageSize.plus_eq init l2) := by
  refine ⟨?_, ?_, ?_, fun l1 l2 init p => foldl_plus_eq_perm p init⟩
  · intro a h1 h2
    obtain ⟨wc, cc⟩ := a
    unfold MessageSize.plus_eq
    simp only [Nat.add_zero, MessageSize.mk.injEq]
    exact ⟨Nat.mod_eq_of_lt h1, Nat.mod_eq_of_lt h2⟩
  · intro a b
    unfold MessageSize.plus_eq
    simp [Nat.add_comm]
  · intro a b c
    unfold MessageSize.plus_eq
    simp only [MessageSize.mk.injEq, Nat.mod_add_mod, Nat.add_mod_mod]
    constructor <;> ring_nf

theorem plus_eq_comm_monoid_witness :
    MessageSize.plus_eq (MessageSize.mk 3 4) (MessageSize.mk 0 0) =
      MessageSize.mk 3 4 ∧
    List.foldl MessageSize.plus_eq (MessageSize.mk 1 1)
        [MessageSize.mk 3 4, MessageSize.mk 5 6] =
      List.foldl MessageSize.plus_eq (MessageSize.mk 1 1)
        [MessageSize.mk 5 6, MessageSize.mk 3 4] :=
  ⟨plus_eq_comm_monoid.1 (MessageSize.mk 3 4) (by norm_num) (by norm_num),
   plus_eq_comm_monoid.2.2.2 _ _ (MessageSize.mk 1 1)
     (List.Perm.swap (MessageSize.mk 5 6) (MessageSize.mk 3 4) [])⟩

/-- C9: dereferencing an `OutputSegments` value is total and preserves the
segment list exactly: the single-segment variant derefs to the one-element
slice holding its segment, and the multi-segment variant derefs to its
vector unchanged. -/
theorem output_segments_deref_id :
    (∀ s : List Word,
        OutputSegments.deref (OutputSegments.SingleSegment s) = [s]) ∧
    (∀ s : List Word,
        (OutputSegments.deref (OutputSegments.SingleSegment s)).length = 1) ∧
    (∀ v : List (List Word),
        OutputSegments.deref (OutputSegments.MultiSegment v) = v) :=
  ⟨fun _ => rfl, fun _ => rfl, fun _ => rfl⟩

/-!
## Packed wire codec

Modelled from the spec: the crate's `serialize_packed` module is not part
of the sources provided, so the packed stream grammar is taken from the
design document.  A word is its list of 8 byte values.  Each word is
emitted as a tag byte holding the bitmask of its nonzero bytes followed by
those bytes; tag `0x00` is followed by a count of additional all-zero
words; tag `0xFF` is followed by the eight literal bytes and a count of
additional all-nonzero words copied verbatim.
-/

/-- Is every byte of the word zero? -/
def isZeroWord (w : List Nat) : Bool :=
  w.all (fun b => b == 0)

/-- Is every byte of the word nonzero? -/
def isFullWord (w : List Nat) : Bool :=
  w.all (fun b => b != 0)

/-- Bitmask of nonzero byte positions, least-significant bit first. -/
def byteMask : List Nat → Nat
  | [] => 0
  | b :: bs => (if b = 0 then 0 else 1) + 2 * byteMask bs

/-- Length of the longest prefix of `ws` satisfying `p`, capped at the
first argument (the run-length counts are single bytes, so at most 255
additional words join a run). -/
def countRun (p : List Nat → Bool) : Nat → List (List Nat) → Nat
  | 0, _ => 0
  | _ + 1, [] => 0
  | n + 1, w :: ws => if p w then countRun p n ws + 1 else 0

/-- Modelled from the spec: the packing transform of `serialize_packed`,
mapping the logical word sequence to the packed byte stream. -/
def pack : List (List Nat) → List Nat
  | [] => []
  | w :: ws =>
    if isZeroWord w then
      0 :: countRun isZeroWord 255 ws :: pack (ws.drop (countRun isZeroWord 255 ws))
    else if byteMask w = 255 then
      255 :: (w ++ countRun isFullWord 255 ws ::
        ((ws.take (countRun isFullWord 255 ws)).flatten ++
          pack (ws.drop (countRun isFullWord 255 ws))))
    else
      byteMask w :: (w.filter (fun b => b != 0) ++ pack ws)
  termination_by ws => ws.length
  decreasing_by
    · simp only [List.length_drop, List.length_cons]
      omega
    · simp only [List.length_drop, List.length_cons]
      omega
    · simp only [List.length_cons]
      omega

/-- Reconstruct one word of `n` bytes from mask `m` and the byte stream:
set mask bits consume a literal byte, clear bits produce a zero byte.
Returns the word and the remaining stream. -/
def unpackWordAux : Nat → Nat → List Nat → List Nat × List Nat
  | 0, _, bs => ([], bs)
  | n + 1, m, bs =>
    if m % 2 = 1 then
      match bs with
      | [] =>
        let r := unpackWordAux n (m / 2) []
        (0 :: r.1, r.2)
      | b :: bs2 =>
        let r := unpackWordAux n (m / 2) bs2
        (b :: r.1, r.2)
    else
      let r := unpackWordAux n (m / 2) bs
      (0 :: r.1, r.2)

theorem unpackWordAux_snd_le (n : Nat) :
    ∀ m bs, (unpackWordAux n m bs).2.length ≤ bs.length := by
  induction n with
  | zero => intro m bs; simp [unpackWordAux]
  | succ n ih =>
    intro m bs
    simp only [unpackWordAux]
    split
    · match bs with
      | [] => simpa using ih (m / 2) []
      | b :: bs2 =>
        simp only [List.length_cons]
        exact Nat.le_trans (ih (m / 2) bs2) (Nat.le_succ _)
    · exact ih (m / 2) bs

/-- Modelled from the spec: the unpacking transform of
`serialize_packed`, recovering the unpacked byte stream from a packed
stream.  A `0x00` tag reads the following count byte and expands the run
of zero words; a `0xFF` tag copies the eight literal bytes, reads the
count byte after them, and copies that many further words verbatim; any
other tag reconstructs a single word from its nonzero-byte mask. -/
def unpack : List Nat → List Nat
  | [] => []
  | m :: bs =>
    if m = 0 then
      List.replicate (8 * (bs.headD 0 + 1)) 0 ++ unpack (bs.drop 1)
    else if m = 255 then
      bs.take 8 ++ ((bs.drop 9).take (8 * (bs.drop 8).headD 0) ++
        unpack ((bs.drop 9).drop (8 * (bs.drop 8).headD 0)))
    else
      (unpackWordAux 8 m bs).1 ++ unpack (unpackWordAux 8 m bs).2
  termination_by l => l.length
  decreasing_by
    · simp only [List.length_drop, List.length_cons]
      omega
    · simp only [List.length_drop, List.length_cons]
      omega
    · have := unpackWordAux_snd_le 8 b bs
      simp only [List.length_cons]
      omega

theorem byteMask_lt (w : List Nat) : byteMask w < 2 ^ w.length := by
  induction w with
  | nil => simp [byteMask]
  | cons b bs ih =>
    simp only [byteMask, List.length_cons, pow_succ]
    split <;> omega

theorem byteMask_eq_zero_iff (w : List Nat) :
    byteMask w = 0 ↔ ∀ b ∈ w, b = 0 := by
  induction w with
  | nil => simp [byteMask]
  | cons b bs ih =>
    simp only [byteMask, List.mem_cons, forall_eq_or_imp, ← ih]
    split <;> omega

theorem byteMask_eq_full_iff (w : List Nat) :
    byteMask w = 2 ^ w.length - 1 ↔ ∀ b ∈ w, b ≠ 0 := by
  induction w with
  | nil => simp [byteMask]
  | cons b bs ih =>
    have hlt := byteMask_lt bs
    have hpos : 0 < 2 ^ bs.length := Nat.pos_pow_of_pos _ (by norm_num)
    simp only [byteMask, List.length_cons, List.mem_cons, forall_eq_or_imp,
      ← ih, pow_succ]
    split <;> omega

theorem isZeroWord_iff (w : List Nat) :
    isZeroWord w = true ↔ ∀ b ∈ w, b = 0 := by
  simp [isZeroWord, List.all_eq_true]

theorem isFullWord_iff (w : List Nat) :
    isFullWord w = true ↔ ∀ b ∈ w, b ≠ 0 := by
  simp [isFullWord, List.all_eq_true]

theorem countRun_le (p : List Nat → Bool) (n : Nat) :
    ∀ ws, countRun p n ws ≤ ws.length := by
  induction n with
  | zero => intro ws; simp [countRun]
  | succ n ih =>
    intro ws
    match ws with
    | [] => simp [countRun]
    | w :: ws =>
      simp only [countRun, List.length_cons]
      split
      · exact Nat.succ_le_succ (ih ws)
      · omega

theorem countRun_take (p : List Nat → Bool) (n : Nat) :
    ∀ ws : List (List Nat), ∀ w ∈ ws.take (countRun p n ws), p w = true := by
  induction n with
  | zero => intro ws; simp [countRun]
  | succ n ih =>
    intro ws
    match ws with
    | [] => simp [countRun]
    | w :: ws =>
      simp only [countRun]
      split
      · intro x hx
        simp only [List.take_succ_cons, List.mem_cons] at hx
        rcases hx with rfl | hx
        · assumption
        · exact ih ws x hx
      · simp

theorem zero_word_eq (w : List Nat) (hz : isZeroWord w = true)
    (hl : w.length = 8) : w = List.replicate 8 0 := by
  rw [List.eq_replicate_iff]
  exact ⟨hl, (isZeroWord_iff w).mp hz⟩

theorem flatten_zero_words (l : List (List Nat))
    (h : ∀ w ∈ l, w = List.replicate 8 0) :
    l.flatten = List.replicate (8 * l.length) 0 := by
  induction l with
  | nil => simp
  | cons w l ih =>
    have hw := h w (List.mem_cons_self w l)
    simp only [List.flatten_cons, hw, ih (fun x hx => h x (List.mem_cons_of_mem w hx)),
      List.length_cons]
    rw [← List.replicate_add]
    congr 1
    ring

theorem flatten_len_eight (l : List (List Nat))
    (h : ∀ w ∈ l, w.length = 8) :
    l.flatten.length = 8 * l.length := by
  induction l with
  | nil => simp
  | cons w l ih =>
    simp only [List.flatten_cons, List.length_append,
      h w (List.mem_cons_self w l),
      ih (fun x hx => h x (List.mem_cons_of_mem w hx)), List.length_cons]
    ring

theorem full_word_filter (w : List Nat) (h : ∀ b ∈ w, b ≠ 0) :
    w.filter (fun b => b != 0) = w := by
  rw [List.filter_eq_self]
  intro b hb
  simpa using h b hb

theorem unpackWordAux_spec (w : List Nat) :
    ∀ rest, unpackWordAux w.length (byteMask w)
      (w.filter (fun b => b != 0) ++ rest) = (w, rest) := by
  induction w with
  | nil => intro rest; simp [unpackWordAux]
  | cons b bs ih =>
    intro rest
    by_cases hb : b = 0
    · subst hb
      have hbm : byteMask (0 :: bs) = 2 * byteMask bs := by
        simp [byteMask]
      have hmod : byteMask (0 :: bs) % 2 = 0 := by omega
      have hdiv : byteMask (0 :: bs) / 2 = byteMask bs := by omega
      have hfil : (0 :: bs).filter (fun b => b != 0) =
          bs.filter (fun b => b != 0) := by
        simp
      simp only [List.length_cons, unpackWordAux, hmod, hdiv, hfil]
      simp [ih rest]
    · have hbm : byteMask (b :: bs) = 1 + 2 * byteMask bs := by
        simp [byteMask, hb]
      have hmod : byteMask (b :: bs) % 2 = 1 := by omega
      have hdiv : byteMask (b :: bs) / 2 = byteMask bs := by omega
      have hfil : (b :: bs).filter (fun b => b != 0) =
          b :: bs.filter (fun b => b != 0) := by
        simp [List.filter_cons, hb]
      simp only [List.length_cons, unpackWordAux, hmod, hdiv, hfil]
      simp [ih rest]

theorem pack_nil : pack [] = [] := by
  simp [pack]

theorem unpack_nil : unpack [] = [] := by
  simp [unpack]

theorem pack_zero_eq (w : List Nat) (ws : List (List Nat))
    (hz : isZeroWord w = true) :
    pack (w :: ws) = 0 :: countRun isZeroWord 255 ws ::
      pack (ws.drop (countRun isZeroWord 255 ws)) := by
  simp [pack, hz]

theorem pack_full_eq (w : List Nat) (ws : List (List Nat))
    (hz : isZeroWord w = false) (hm : byteMask w = 255) :
    pack (w :: ws) = 255 :: (w ++ countRun isFullWord 255 ws ::
      ((ws.take (countRun isFullWord 255 ws)).flatten ++
        pack (ws.drop (countRun isFullWord 255 ws)))) := by
  simp [pack, hz, hm]

theorem pack_mask_eq (w : List Nat) (ws : List (List Nat))
    (hz : isZeroWord w = false) (hm : ¬ byteMask w = 255) :
    pack (w :: ws) = byteMask w ::
      (w.filter (fun b => b != 0) ++ pack ws) := by
  simp [pack, hz, hm]

theorem unpack_zero_cons (k : Nat) (bs : List Nat) :
    unpack (0 :: k :: bs) = List.replicate (8 * (k + 1)) 0 ++ unpack bs := by
  simp [unpack]

theorem unpack_full_cons (w : List Nat) (hw : w.length = 8) (k : Nat)
    (rest : List Nat) :
    unpack (255 :: (w ++ k :: rest)) =
      w ++ (rest.take (8 * k) ++ unpack (rest.drop (8 * k))) := by
  have h8 : (w ++ k :: rest).drop 8 = k :: rest := List.drop_left' hw
  have h9 : (w ++ k :: rest).drop 9 = rest := by
    rw [show (9 : Nat) = 8 + 1 from rfl, ← List.drop_drop, h8]
    simp
  have htake : (w ++ k :: rest).take 8 = w := List.take_left' hw
  have hhead : ((w ++ k :: rest).drop 8).headD 0 = k := by rw [h8]; rfl
  unfold unpack
  rw [if_neg (by norm_num), if_pos rfl, htake, h9, hhead]
  rw [← unpack.eq_def]

theorem unpack_mask_cons (m : Nat) (hm0 : m ≠ 0) (hm255 : m ≠ 255)
    (bs : List Nat) :
    unpack (m :: bs) =
      (unpackWordAux 8 m bs).1 ++ unpack (unpackWordAux 8 m bs).2 := by
  simp [unpack, hm0, hm255]

theorem unpack_pack_fuel :
    ∀ (n : Nat) (ws : List (List Nat)), ws.length ≤ n →
      (∀ w ∈ ws, w.length = 8) → unpack (pack ws) = ws.flatten := by
  intro n
  induction n with
  | zero =>
    intro ws hle _
    have hnil : ws = [] := List.length_eq_zero.mp (Nat.le_zero.mp hle)
    subst hnil
    rw [pack_nil, unpack_nil]
    rfl
  | succ n ih =>
    intro ws hle h8
    match ws with
    | [] =>
      rw [pack_nil, unpack_nil]
      rfl
    | w :: ws =>
      have hw8 : w.length = 8 := h8 w (List.mem_cons_self w ws)
      have hle2 : ws.length ≤ n := by
        simp only [List.length_cons] at hle
        omega
      have h82 : ∀ x ∈ ws, x.length = 8 :=
        fun x hx => h8 x (List.mem_cons_of_mem w hx)
      by_cases hz : isZeroWord w = true
      · have hkle : countRun isZeroWord 255 ws ≤ ws.length :=
          countRun_le _ _ _
        have hdle : (ws.drop (countRun isZeroWord 255 ws)).length ≤ n := by
          simp only [List.length_drop]
          omega
        have hdmem : ∀ x ∈ ws.drop (countRun isZeroWord 255 ws),
            x.length = 8 :=
          fun x hx => h82 x ((List.drop_sublist _ _).subset hx)
        rw [pack_zero_eq w ws hz, unpack_zero_cons, ih _ hdle hdmem]
        have hsplit : ws.flatten =
            (ws.take (countRun isZeroWord 255 ws)).flatten ++
              (ws.drop (countRun isZeroWord 255 ws)).flatten := by
          conv_lhs =>
            rw [← List.take_append_drop (countRun isZeroWord 255 ws) ws]
          rw [List.flatten_append]
        have htakezero : (ws.take (countRun isZeroWord 255 ws)).flatten =
            List.replicate (8 * countRun isZeroWord 255 ws) 0 := by
          rw [flatten_zero_words]
          · congr 1
            rw [List.length_take]
            omega
          · intro x hx
            exact zero_word_eq x (countRun_take _ _ _ x hx)
              (h82 x ((List.take_sublist _ _).subset hx))
        have hwzero : w = List.replicate 8 0 := zero_word_eq w hz hw8
        rw [List.flatten_cons, hsplit, hwzero, htakezero,
          ← List.append_assoc, ← List.replicate_add]
        congr 2
        omega
      · have hzf : isZeroWord w = false := by
          simpa using hz
        by_cases hf : byteMask w = 255
        · have hkle : countRun isFullWord 255 ws ≤ ws.length :=
            countRun_le _ _ _
          have hdle : (ws.drop (countRun isFullWord 255 ws)).length ≤ n := by
            simp only [List.length_drop]
            omega
          have hdmem : ∀ x ∈ ws.drop (countRun isFullWord 255 ws),
              x.length = 8 :=
            fun x hx => h82 x ((List.drop_sublist _ _).subset hx)
          have hflatlen :
              ((ws.take (countRun isFullWord 255 ws)).flatten).length =
                8 * countRun isFullWord 255 ws := by
            rw [flatten_len_eight]
            · rw [List.length_take]
              omega
            · intro x hx
              exact h82 x ((List.take_sublist _ _).subset hx)
          rw [pack_full_eq w ws hzf hf, unpack_full_cons w hw8,
            List.take_left' hflatlen, List.drop_left' hflatlen,
            ih _ hdle hdmem]
          have hsplit : ws.flatten =
              (ws.take (countRun isFullWord 255 ws)).flatten ++
                (ws.drop (countRun isFullWord 255 ws)).flatten := by
            conv_lhs =>
              rw [← List.take_append_drop (countRun isFullWord 255 ws) ws]
            rw [List.flatten_append]
          rw [List.flatten_cons, hsplit]
        · have hm0 : byteMask w ≠ 0 := by
            intro h0
            have hall := (byteMask_eq_zero_iff w).mp h0
            have htr : isZeroWord w = true := (isZeroWord_iff w).mpr hall
            rw [hzf] at htr
            exact Bool.false_ne_true htr
          rw [pack_mask_eq w ws hzf hf, unpack_mask_cons _ hm0 hf]
          have hspec := unpackWordAux_spec w (pack ws)
          rw [hw8] at hspec
          rw [hspec]
          simp only
          rw [ih ws hle2 h82, List.flatten_cons]

/-- Split a byte stream into its consecutive 8-byte words. -/
def chunks8 : List Nat → List (List Nat)
  | [] => []
  | b :: bs => ((b :: bs).take 8) :: chunks8 ((b :: bs).drop 8)
  termination_by l => l.length
  decreasing_by
    simp only [List.length_drop, List.length_cons]
    omega

theorem chunks8_flatten : ∀ s : List Nat, (chunks8 s).flatten = s := by
  intro s
  induction s using chunks8.induct with
  | case1 => simp [chunks8]
  | case2 b bs ih =>
    rw [chunks8, List.flatten_cons, ih, List.take_append_drop]

theorem chunks8_mem_length :
    ∀ s : List Nat, 8 ∣ s.length → ∀ w ∈ chunks8 s, w.length = 8 := by
  intro s
  induction s using chunks8.induct with
  | case1 => simp [chunks8]
  | case2 b bs ih =>
    intro hdvd w hw
    have hge : 8 ≤ (b :: bs).length := by
      simp only [List.length_cons] at hdvd ⊢
      omega
    rw [chunks8] at hw
    rcases List.mem_cons.mp hw with rfl | hw
    · rw [List.length_take]
      omega
    · apply ih _ w hw
      simp only [List.length_drop, List.length_cons] at hdvd ⊢
      omega

theorem flatten_len_dvd (l : List (List Nat))
    (h : ∀ x ∈ l, 8 ∣ x.length) : 8 ∣ l.flatten.length := by
  induction l with
  | nil => simp
  | cons x l ih =>
    simp only [List.flatten_cons, List.length_append]
    exact Nat.dvd_add (h x (List.mem_cons_self x l))
      (ih (fun y hy => h y (List.mem_cons_of_mem x hy)))

/-- Modelled from the spec: the unpacked wire serialization of a message's
segment list — a little-endian `u32` segment count minus one, one
little-endian `u32` word count per segment, zero padding to an 8-byte
boundary, then each segment's raw bytes in order. -/
def serialize (segs : List (List Word)) : List Nat :=
  let table := leBytes 4 (segs.length - 1) ++
    (segs.map (fun s => leBytes 4 s.length)).flatten
  table ++ List.replicate ((8 - table.length % 8) % 8) 0 ++
    (segs.map Word.words_to_bytes).flatten

theorem table_flatten_length (segs : List (List Word)) :
    ((segs.map (fun s => leBytes 4 s.length)).flatten).length =
      4 * segs.length := by
  induction segs with
  | nil => simp
  | cons s segs ih =>
    simp only [List.map_cons, List.flatten_cons, List.length_append,
      leBytes_length, ih, List.length_cons]
    ring

theorem serialize_length_dvd (segs : List (List Word)) :
    8 ∣ (serialize segs).length := by
  unfold serialize
  simp only [List.length_append, List.length_replicate, leBytes_length,
    table_flatten_length]
  have hflat : 8 ∣ ((segs.map Word.words_to_bytes).flatten).length := by
    apply flatten_len_dvd
    intro x hx
    rcases List.mem_map.mp hx with ⟨s, _, rfl⟩
    rw [words_to_bytes_length]
    exact Dvd.intro _ rfl
  omega

theorem unpack_pack_chunks (s : List Nat) (h : 8 ∣ s.length) :
    unpack (pack (chunks8 s)) = s := by
  rw [unpack_pack_fuel (chunks8 s).length (chunks8 s) le_rfl
    (chunks8_mem_length s h), chunks8_flatten]

/-- C2: packing followed by unpacking is the identity on the serialized
word stream of every message: `unpack (pack (serialize M)) = serialize M`
byte-for-byte, so the packed codec is lossless. -/
theorem packed_roundtrip_serialize (segs : List (List Word)) :
    unpack (pack (chunks8 (serialize segs))) = serialize segs :=
  unpack_pack_chunks _ (serialize_length_dvd segs)

/-!
## Pointer decoding

Modelled from the spec: the crate's `layout` and `arena` modules are not
part of the sources provided, so the pointer bit layout, bounds checks and
traversal budget follow the design document (pointer word bit layout of
section 6, decode dispatch of section 4.3, reader arena budget of section
4.2).  A message is its list of segments, each segment a list of word
values; the traversal budget is the remaining word allowance.
-/

/-- Kind tag of a pointer word: bits `[0:2)`. -/
def ptrKind (w : Nat) : Nat := w % 4

/-- Signed word offset of a near pointer: bits `[2:32)`, two's
complement. -/
def ptrOffset (w : Nat) : Int :=
  let raw : Nat := w / 4 % 2 ^ 30
  if raw < 2 ^ 29 then (raw : Int) else (raw : Int) - 2 ^ 30

/-- Data-section word count of a struct pointer: bits `[32:48)`. -/
def structDataCount (w : Nat) : Nat := w / 2 ^ 32 % 2 ^ 16

/-- Pointer-section word count of a struct pointer: bits `[48:64)`. -/
def structPtrCount (w : Nat) : Nat := w / 2 ^ 48 % 2 ^ 16

/-- Element-size tag of a list pointer: bits `[32:35)`. -/
def listElemTag (w : Nat) : Nat := w / 2 ^ 32 % 8

/-- Element count (or composite word count) of a list pointer:
bits `[35:64)`. -/
def listElemCount (w : Nat) : Nat := w / 2 ^ 35 % 2 ^ 29

/-- Target segment id of a far pointer: bits `[32:64)`. -/
def farSegId (w : Nat) : Nat := w / 2 ^ 32 % 2 ^ 32

/-- Word offset of a far pointer inside its target segment:
bits `[3:32)`. -/
def farOffset (w : Nat) : Nat := w / 8 % 2 ^ 29

/-- Capability-table index of a capability pointer: bits `[32:64)`. -/
def capIndex (w : Nat) : Nat := w / 2 ^ 32 % 2 ^ 32

/-- Words occupied by a list's body given its element-size tag and count:
tags 0-5 are void/bit/1/2/4/8-byte elements, 6 is pointer elements, 7 is
a composite body of `count` content words after one tag word. -/
def listWordCount (tag count : Nat) : Nat :=
  match tag with
  | 0 => 0
  | 1 => (count + 63) / 64
  | 2 => (count + 7) / 8
  | 3 => (2 * count + 7) / 8
  | 4 => (4 * count + 7) / 8
  | 5 => count
  | 6 => count
  | _ => count + 1

def outOfBoundsError : Error :=
  Error.new_decode_error "Message contained out-of-bounds pointer."

def readLimitError : Error :=
  Error.new_decode_error "Read limit exceeded."

def depthLimitError : Error :=
  Error.new_decode_error "Message is too deeply nested."

def segmentRangeError : Error :=
  Error.new_decode_error "Invalid segment id."

def capRangeError : Error :=
  Error.new_decode_error "Invalid capability index."

/-- The typed cursor produced by following one pointer. -/
inductive PtrView where
  | nullView
  | structView (seg start dataWords ptrWords : Nat)
  | listView (seg start wordCount : Nat)
  | capView (index : Nat)
deriving DecidableEq, Repr

/-- A region claimed by a view lies inside its segment. -/
def viewInBounds (msg : List (List Nat)) : PtrView → Prop
  | PtrView.nullView => True
  | PtrView.structView s st d p =>
      s < msg.length ∧ st + d + p ≤ (msg.getD s []).length
  | PtrView.listView s st wc =>
      s < msg.length ∧ st + wc ≤ (msg.getD s []).length
  | PtrView.capView _ => True

/-- One step of pointer decoding: either a final outcome or a redirect to
the far target. -/
inductive FarStep where
  | done (r : Except Error (PtrView × Nat))
  | redirect (seg offset : Nat)

/-- Modelled from the spec: decode the pointer word at `(s, i)` —
resolve the segment id, read the word, dispatch on its kind tag, verify
that a near target lies entirely within the segment, and charge the
target's words against the traversal budget.  Also returns the word
positions actually read. -/
def wordAt (msg : List (List Nat)) (s i : Nat) : Nat :=
  (msg.getD s []).getD i 0

/-- Absolute start of a near pointer target: the word after the pointer
plus the signed offset. -/
def targetStart (i : Nat) (w : Nat) : Int :=
  (i : Int) + 1 + ptrOffset w

/-- Modelled from the spec: does the struct target of the pointer word `w`
read at index `i` lie entirely within a segment of `segLen` words? -/
def structTargetOk (segLen i w : Nat) : Prop :=
  0 ≤ targetStart i w ∧
    (targetStart i w).toNat + structDataCount w + structPtrCount w ≤ segLen

/-- Modelled from the spec: does the list target of the pointer word `w`
read at index `i` lie entirely within a segment of `segLen` words? -/
def listTargetOk (segLen i w : Nat) : Prop :=
  0 ≤ targetStart i w ∧
    (targetStart i w).toNat +
      listWordCount (listElemTag w) (listElemCount w) ≤ segLen

instance (segLen i w : Nat) : Decidable (structTargetOk segLen i w) := by
  unfold structTargetOk
  infer_instance

instance (segLen i w : Nat) : Decidable (listTargetOk segLen i w) := by
  unfold listTargetOk
  infer_instance

def decodeWordAt (msg : List (List Nat)) (capCount budget s i : Nat) :
    FarStep × List (Nat × Nat) :=
  if s < msg.length then
    if i < (msg.getD s []).length then
      if wordAt msg s i = 0 then
        (FarStep.done (Except.ok (PtrView.nullView, budget)), [(s, i)])
      else if wordAt msg s i % 4 = 0 then
        if structTargetOk (msg.getD s []).length i (wordAt msg s i) then
          if structDataCount (wordAt msg s i) +
              structPtrCount (wordAt msg s i) ≤ budget then
            (FarStep.done (Except.ok
              (PtrView.structView s (targetStart i (wordAt msg s i)).toNat
                (structDataCount (wordAt msg s i))
                (structPtrCount (wordAt msg s i)),
                budget - (structDataCount (wordAt msg s i) +
                  structPtrCount (wordAt msg s i)))), [(s, i)])
          else (FarStep.done (Except.error readLimitError), [(s, i)])
        else (FarStep.done (Except.error outOfBoundsError), [(s, i)])
      else if wordAt msg s i % 4 = 1 then
        if listTargetOk (msg.getD s []).length i (wordAt msg s i) then
          if listWordCount (listElemTag (wordAt msg s i))
              (listElemCount (wordAt msg s i)) ≤ budget then
            (FarStep.done (Except.ok
              (PtrView.listView s (targetStart i (wordAt msg s i)).toNat
                (listWordCount (listElemTag (wordAt msg s i))
                  (listElemCount (wordAt msg s i))),
                budget - listWordCount (listElemTag (wordAt msg s i))
                  (listElemCount (wordAt msg s i)))), [(s, i)])
          else (FarStep.done (Except.error readLimitError), [(s, i)])
        else (FarStep.done (Except.error outOfBoundsError), [(s, i)])
      else if wordAt msg s i % 4 = 2 then
        (FarStep.redirect (farSegId (wordAt msg s i))
          (farOffset (wordAt msg s i)), [(s, i)])
      else
        if capIndex (wordAt msg s i) < capCount then
          (FarStep.done (Except.ok
            (PtrView.capView (capIndex (wordAt msg s i)), budget)), [(s, i)])
        else (FarStep.done (Except.error capRangeError), [(s, i)])
    else (FarStep.done (Except.error outOfBoundsError), [])
  else (FarStep.done (Except.error segmentRangeError), [])

/-- Modelled from the spec: follow the pointer word at `(s, i)`,
resolving far-pointer indirections up to the nesting-depth limit `fuel`
(default 64 in the spec).  Returns the decode outcome together with every
word position read along the way. -/
def followPtr (msg : List (List Nat)) (capCount : Nat) :
    Nat → Nat → Nat → Nat →
      Except Error (PtrView × Nat) × List (Nat × Nat)
  | fuel, budget, s, i =>
    match decodeWordAt msg capCount budget s i with
    | (FarStep.done r, tr) => (r, tr)
    | (FarStep.redirect s2 i2, tr) =>
      match fuel with
      | 0 => (Except.error depthLimitError, tr)
      | fuel2 + 1 =>
        let r := followPtr msg capCount fuel2 budget s2 i2
        (r.1, tr ++ r.2)

theorem decodeWordAt_err (msg : List (List Nat)) (capCount budget s i : Nat) :
    ∀ e, (decodeWordAt msg capCount budget s i).1 =
      FarStep.done (Except.error e) → e.kind = ErrorKind.Failed := by
  intro e h
  unfold decodeWordAt at h
  repeat' split at h
  all_goals try simp_all [outOfBoundsError, readLimitError, segmentRangeError,
    capRangeError, Error.new_decode_error]
  all_goals subst h
  all_goals rfl

theorem decodeWordAt_trace (msg : List (List Nat)) (capCount budget s i : Nat) :
    ∀ q ∈ (decodeWordAt msg capCount budget s i).2,
      q.1 < msg.length ∧ q.2 < (msg.getD q.1 []).length := by
  intro q hq
  unfold decodeWordAt at hq
  repeat' split at hq
  all_goals simp_all

theorem decodeWordAt_ok (msg : List (List Nat)) (capCount budget s i : Nat) :
    ∀ v b2, (decodeWordAt msg capCount budget s i).1 =
      FarStep.done (Except.ok (v, b2)) → viewInBounds msg v := by
  intro v b2 h
  unfold decodeWordAt at h
  repeat' split at h
  all_goals try simp_all [viewInBounds]
  all_goals obtain ⟨hv, hb⟩ := h
  all_goals subst hv
  all_goals simp_all [viewInBounds, structTargetOk, listTargetOk]

theorem followPtr_err (msg : List (List Nat)) (capCount : Nat) :
    ∀ fuel budget s i e,
      (followPtr msg capCount fuel budget s i).1 = Except.error e →
      e.kind = ErrorKind.Failed := by
  intro fuel
  induction fuel with
  | zero =>
    intro budget s i e h
    unfold followPtr at h
    split at h
    · rename_i r tr heq
      have hr : r = Except.error e := h
      exact decodeWordAt_err msg capCount budget s i e (by rw [heq, hr])
    · rename_i s2 i2 tr heq
      have hr : Except.error (α := PtrView × Nat) depthLimitError =
          Except.error e := h
      injection hr with hr2
      rw [← hr2]
      rfl
  | succ fuel ih =>
    intro budget s i e h
    unfold followPtr at h
    split at h
    · rename_i r tr heq
      have hr : r = Except.error e := h
      exact decodeWordAt_err msg capCount budget s i e (by rw [heq, hr])
    · rename_i s2 i2 tr heq
      exact ih budget s2 i2 e h

theorem followPtr_trace (msg : List (List Nat)) (capCount : Nat) :
    ∀ fuel budget s i,
      ∀ q ∈ (followPtr msg capCount fuel budget s i).2,
        q.1 < msg.length ∧ q.2 < (msg.getD q.1 []).length := by
  intro fuel
  induction fuel with
  | zero =>
    intro budget s i q hq
    unfold followPtr at hq
    split at hq
    · rename_i r tr heq
      have hq2 : q ∈ tr := hq
      exact decodeWordAt_trace msg capCount budget s i q (by rw [heq]; exact hq2)
    · rename_i s2 i2 tr heq
      have hq2 : q ∈ tr := hq
      exact decodeWordAt_trace msg capCount budget s i q (by rw [heq]; exact hq2)
  | succ fuel ih =>
    intro budget s i q hq
    unfold followPtr at hq
    split at hq
    · rename_i r tr heq
      have hq2 : q ∈ tr := hq
      exact decodeWordAt_trace msg capCount budget s i q (by rw [heq]; exact hq2)
    · rename_i s2 i2 tr heq
      have hq2 : q ∈ tr ++ (followPtr msg capCount fuel budget s2 i2).2 := hq
      rcases List.mem_append.mp hq2 with hq3 | hq3
      · exact decodeWordAt_trace msg capCount budget s i q (by rw [heq]; exact hq3)
      · exact ih budget s2 i2 q hq3

theorem followPtr_ok (msg : List (List Nat)) (capCount : Nat) :
    ∀ fuel budget s i v b2,
      (followPtr msg capCount fuel budget s i).1 = Except.ok (v, b2) →
      viewInBounds msg v := by
  intro fuel
  induction fuel with
  | zero =>
    intro budget s i v b2 h
    unfold followPtr at h
    split at h
    · rename_i r tr heq
      have hr : r = Except.ok (v, b2) := h
      exact decodeWordAt_ok msg capCount budget s i v b2 (by rw [heq, hr])
    · rename_i s2 i2 tr heq
      have hr : Except.error (α := PtrView × Nat) depthLimitError =
          Except.ok (v, b2) := h
      cases hr
  | succ fuel ih =>
    intro budget s i v b2 h
    unfold followPtr at h
    split at h
    · rename_i r tr heq
      have hr : r = Except.ok (v, b2) := h
      exact decodeWordAt_ok msg capCount budget s i v b2 (by rw [heq, hr])
    · rename_i s2 i2 tr heq
      exact ih budget s2 i2 v b2 h

theorem followPtr_done (msg : List (List Nat)) (capCount fuel budget s i : Nat)
    (r : Except Error (PtrView × Nat)) (tr : List (Nat × Nat))
    (h : decodeWordAt msg capCount budget s i = (FarStep.done r, tr)) :
    followPtr msg capCount fuel budget s i = (r, tr) := by
  cases fuel <;> (unfold followPtr; rw [h])

theorem followPtr_redirect (msg : List (List Nat))
    (capCount fuel budget s i s2 i2 : Nat) (tr : List (Nat × Nat))
    (h : decodeWordAt msg capCount budget s i = (FarStep.redirect s2 i2, tr)) :
    followPtr msg capCount (fuel + 1) budget s i =
      ((followPtr msg capCount fuel budget s2 i2).1,
        tr ++ (followPtr msg capCount fuel budget s2 i2).2) := by
  conv_lhs => unfold followPtr
  rw [h]

theorem followPtr_struct_oob (msg : List (List Nat))
    (capCount fuel budget s i : Nat)
    (hs : s < msg.length) (hi : i < (msg.getD s []).length)
    (hw0 : wordAt msg s i ≠ 0) (hk : wordAt msg s i % 4 = 0)
    (hbad : ¬ structTargetOk (msg.getD s []).length i (wordAt msg s i)) :
    (followPtr msg capCount fuel budget s i).1 =
      Except.error outOfBoundsError := by
  have hdec : decodeWordAt msg capCount budget s i =
      (FarStep.done (Except.error outOfBoundsError), [(s, i)]) := by
    unfold decodeWordAt
    rw [if_pos hs, if_pos hi, if_neg hw0, if_pos hk, if_neg hbad]
  rw [followPtr_done msg capCount fuel budget s i _ _ hdec]

theorem followPtr_list_oob (msg : List (List Nat))
    (capCount fuel budget s i : Nat)
    (hs : s < msg.length) (hi : i < (msg.getD s []).length)
    (hw0 : wordAt msg s i ≠ 0) (hk : wordAt msg s i % 4 = 1)
    (hbad : ¬ listTargetOk (msg.getD s []).length i (wordAt msg s i)) :
    (followPtr msg capCount fuel budget s i).1 =
      Except.error outOfBoundsError := by
  have hk0 : ¬ wordAt msg s i % 4 = 0 := by omega
  have hdec : decodeWordAt msg capCount budget s i =
      (FarStep.done (Except.error outOfBoundsError), [(s, i)]) := by
    unfold decodeWordAt
    rw [if_pos hs, if_pos hi, if_neg hw0, if_neg hk0, if_pos hk, if_neg hbad]
  rw [followPtr_done msg capCount fuel budget s i _ _ hdec]

def truncatedError : Error :=
  Error.new_decode_error "Stream ended prematurely."

/-- Modelled from the spec: cut the segment byte stream into word slices
of the declared sizes. -/
def splitSegments : List Nat → List Nat → List (List Word)
  | [], _ => []
  | sz :: sizes, bytes =>
    Word.bytes_to_words (bytes.take (8 * sz)) ::
      splitSegments sizes (bytes.drop (8 * sz))

/-- Modelled from the spec: parse the §4.6 unpacked wire format — read
the `u32` segment count minus one, the per-segment word counts, skip the
padding, check that the declared total size matches the stream length
exactly, and cut the stream into segments; any mismatch or truncation is
a decode error. -/
def deserialize (bs : List Nat) : Except Error (List (List Word)) :=
  if 4 ≤ bs.length then
    if 4 + 4 * (leVal (bs.take 4) + 1) ≤ bs.length then
      if bs.length = 8 * ((4 + 4 * (leVal (bs.take 4) + 1) + 7) / 8) +
          8 * ((List.range (leVal (bs.take 4) + 1)).map
            (fun k => leVal ((bs.drop (4 + 4 * k)).take 4))).sum then
        Except.ok (splitSegments
          ((List.range (leVal (bs.take 4) + 1)).map
            (fun k => leVal ((bs.drop (4 + 4 * k)).take 4)))
          (bs.drop (8 * ((4 + 4 * (leVal (bs.take 4) + 1) + 7) / 8))))
      else Except.error truncatedError
    else Except.error truncatedError
  else Except.error truncatedError

theorem deserialize_err (bs : List Nat) (e : Error)
    (h : deserialize bs = Except.error e) : e.kind = ErrorKind.Failed := by
  unfold deserialize at h
  repeat' split at h
  all_goals cases h
  all_goals rfl

/-- C1: pointer following and stream parsing on arbitrary input either
succeed or return a decode error of kind `Failed`; every word position
actually read lies within the bounds of its segment; every view returned
claims only in-bounds words; and a nonnull struct or list pointer whose
offset or declared size places its target partly or fully outside its
segment is rejected with an out-of-bounds decode error, the target words
never read. -/
theorem pointer_follow_safety :
    (∀ (msg : List (List Nat)) (capCount fuel budget s i : Nat) (e : Error),
        (followPtr msg capCount fuel budget s i).1 = Except.error e →
        e.kind = ErrorKind.Failed) ∧
    (∀ (msg : List (List Nat)) (capCount fuel budget s i : Nat),
        ∀ q ∈ (followPtr msg capCount fuel budget s i).2,
          q.1 < msg.length ∧ q.2 < (msg.getD q.1 []).length) ∧
    (∀ (msg : List (List Nat)) (capCount fuel budget s i : Nat)
        (v : PtrView) (b2 : Nat),
        (followPtr msg capCount fuel budget s i).1 = Except.ok (v, b2) →
        viewInBounds msg v) ∧
    (∀ (msg : List (List Nat)) (capCount fuel budget s i : Nat),
        s < msg.length → i < (msg.getD s []).length →
        wordAt msg s i ≠ 0 → wordAt msg s i % 4 = 0 →
        ¬ structTargetOk (msg.getD s []).length i (wordAt msg s i) →
        (followPtr msg capCount fuel budget s i).1 =
          Except.error outOfBoundsError) ∧
    (∀ (msg : List (List Nat)) (capCount fuel budget s i : Nat),
        s < msg.length → i < (msg.getD s []).length →
        wordAt msg s i ≠ 0 → wordAt msg s i % 4 = 1 →
        ¬ listTargetOk (msg.getD s []).length i (wordAt msg s i) →
        (followPtr msg capCount fuel budget s i).1 =
          Except.error outOfBoundsError) ∧
    (∀ (bs : List Nat) (e : Error),
        deserialize bs = Except.error e → e.kind = ErrorKind.Failed) :=
  ⟨fun msg capCount fuel budget s i e h =>
      followPtr_err msg capCount fuel budget s i e h,
   fun msg capCount fuel budget s i =>
      followPtr_trace msg capCount fuel budget s i,
   fun msg capCount fuel budget s i v b2 h =>
      followPtr_ok msg capCount fuel budget s i v b2 h,
   fun msg capCount fuel budget s i =>
      followPtr_struct_oob msg capCount fuel budget s i,
   fun msg capCount fuel budget s i =>
      followPtr_list_oob msg capCount fuel budget s i,
   deserialize_err⟩

theorem pointer_follow_safety_witness :
    (followPtr [[429496729600]] 0 64 1000 0 0).1 =
      Except.error outOfBoundsError :=
  pointer_follow_safety.2.2.2.1 [[429496729600]] 0 64 1000 0 0
    (by decide) (by decide) (by decide) (by decide) (by decide)

theorem getD_replicate_of_lt {α : Type} (a d : α) :
    ∀ (n j : Nat), j < n → (List.replicate n a).getD j d = a := by
  intro n
  induction n with
  | zero => intro j hj; omega
  | succ n ih =>
    intro j hj
    match j with
    | 0 => rfl
    | j + 1 =>
      rw [List.replicate_succ]
      exact ih j (by omega)

/-- A far pointer word with kind tag 2, offset 0, target segment 1. -/
def farWord : Nat := 2 + 2 ^ 32

/-- A struct pointer word with kind tag 0, offset 0, `d` data words and
`p` pointer words. -/
def structWord (d p : Nat) : Nat := d * 2 ^ 32 + p * 2 ^ 48

/-- Modelled from the spec: the amplification message of the budget
claim — segment 0 holds `n` far pointers all targeting the struct
pointer at the start of segment 1, which declares a struct of `d + p`
words followed by that many words of content. -/
def ampMsg (n d p : Nat) : List (List Nat) :=
  [List.replicate n farWord, structWord d p :: List.replicate (d + p) 0]

/-- Modelled from the spec: follow each pointer position in turn,
threading the traversal budget, as a traversal of a list of pointers
does. -/
def followSeq (msg : List (List Nat)) (capCount fuel : Nat) :
    List (Nat × Nat) → Nat → Except Error Nat
  | [], budget => Except.ok budget
  | q :: qs, budget =>
    match (followPtr msg capCount fuel budget q.1 q.2).1 with
    | Except.error e => Except.error e
    | Except.ok (_, b2) => followSeq msg capCount fuel qs b2

theorem structWord_kind (d p : Nat) : structWord d p % 4 = 0 := by
  unfold structWord
  omega

theorem structWord_ne_zero (d p : Nat) (h : d + p ≠ 0) :
    structWord d p ≠ 0 := by
  unfold structWord
  omega

theorem structWord_data (d p : Nat) (hd : d < 2 ^ 16) :
    structDataCount (structWord d p) = d := by
  unfold structWord structDataCount
  omega

theorem structWord_ptrs (d p : Nat) (hd : d < 2 ^ 16) (hp : p < 2 ^ 16) :
    structPtrCount (structWord d p) = p := by
  unfold structWord structPtrCount
  omega

theorem structWord_offset (d p : Nat) : ptrOffset (structWord d p) = 0 := by
  have hraw : structWord d p / 4 % 2 ^ 30 = 0 := by
    unfold structWord
    omega
  unfold ptrOffset
  rw [hraw]
  norm_num

theorem amp_wordAt0 (n d p j : Nat) (hj : j < n) :
    wordAt (ampMsg n d p) 0 j = farWord := by
  show (List.replicate n farWord).getD j 0 = farWord
  exact getD_replicate_of_lt farWord 0 n j hj

theorem amp_decode0 (n d p capCount b j : Nat) (hj : j < n) :
    decodeWordAt (ampMsg n d p) capCount b 0 j =
      (FarStep.redirect 1 0, [(0, j)]) := by
  have hw : wordAt (ampMsg n d p) 0 j = farWord := amp_wordAt0 n d p j hj
  have hs : 0 < (ampMsg n d p).length := by simp [ampMsg]
  have hi : j < ((ampMsg n d p).getD 0 []).length := by
    show j < (List.replicate n farWord).length
    simp [hj]
  unfold decodeWordAt
  rw [if_pos hs, if_pos hi, hw,
    if_neg (by decide : ¬ (farWord = 0)),
    if_neg (by decide : ¬ (farWord % 4 = 0)),
    if_neg (by decide : ¬ (farWord % 4 = 1)),
    if_pos (by decide : farWord % 4 = 2),
    show farSegId farWord = 1 from by decide,
    show farOffset farWord = 0 from by decide]

theorem amp_decode1 (n d p capCount b : Nat) (hd : d < 2 ^ 16)
    (hp : p < 2 ^ 16) (hnz : d + p ≠ 0) :
    decodeWordAt (ampMsg n d p) capCount b 1 0 =
      (if d + p ≤ b then
        FarStep.done (Except.ok (PtrView.structView 1 1 d p, b - (d + p)))
      else FarStep.done (Except.error readLimitError), [(1, 0)]) := by
  have hw : wordAt (ampMsg n d p) 1 0 = structWord d p := rfl
  have hs : 1 < (ampMsg n d p).length := by simp [ampMsg]
  have hi : 0 < ((ampMsg n d p).getD 1 []).length := by
    show 0 < (structWord d p :: List.replicate (d + p) 0).length
    simp
  have hlen : ((ampMsg n d p).getD 1 []).length = d + p + 1 := by
    show (structWord d p :: List.replicate (d + p) 0).length = d + p + 1
    simp
  have hts : (targetStart 0 (structWord d p)).toNat = 1 := by
    unfold targetStart
    rw [structWord_offset]
    decide
  have hok : structTargetOk ((ampMsg n d p).getD 1 []).length 0
      (structWord d p) := by
    unfold structTargetOk
    rw [hlen, hts, structWord_data d p hd, structWord_ptrs d p hd hp]
    constructor
    · unfold targetStart
      rw [structWord_offset]
      decide
    · omega
  unfold decodeWordAt
  rw [if_pos hs, if_pos hi, hw,
    if_neg (structWord_ne_zero d p hnz),
    if_pos (structWord_kind d p),
    if_pos hok,
    structWord_data d p hd, structWord_ptrs d p hd hp, hts]
  by_cases hb : d + p ≤ b
  · rw [if_pos hb, if_pos hb]
  · rw [if_neg hb, if_neg hb]

theorem followPtr_amp (n d p : Nat) (hd : d < 2 ^ 16) (hp : p < 2 ^ 16)
    (hnz : d + p ≠ 0) (capCount fuel b j : Nat) (hj : j < n) :
    (followPtr (ampMsg n d p) capCount (fuel + 1) b 0 j).1 =
      if d + p ≤ b then
        Except.ok (PtrView.structView 1 1 d p, b - (d + p))
      else Except.error readLimitError := by
  rw [followPtr_redirect _ capCount fuel b 0 j 1 0 _
    (amp_decode0 n d p capCount b j hj)]
  by_cases hb : d + p ≤ b
  · rw [followPtr_done _ capCount fuel b 1 0
      (Except.ok (PtrView.structView 1 1 d p, b - (d + p))) [(1, 0)]
      (by rw [amp_decode1 n d p capCount b hd hp hnz, if_pos hb]),
      if_pos hb]
  · rw [followPtr_done _ capCount fuel b 1 0
      (Except.error readLimitError) [(1, 0)]
      (by rw [amp_decode1 n d p capCount b hd hp hnz, if_neg hb]),
      if_neg hb]

theorem followSeq_amp (n d p : Nat) (hd : d < 2 ^ 16) (hp : p < 2 ^ 16)
    (hnz : d + p ≠ 0) (capCount fuel : Nat) :
    ∀ ps : List (Nat × Nat), (∀ q ∈ ps, q.1 = 0 ∧ q.2 < n) →
      ∀ b, followSeq (ampMsg n d p) capCount (fuel + 1) ps b =
        if ps.length * (d + p) ≤ b then
          Except.ok (b - ps.length * (d + p))
        else Except.error readLimitError := by
  intro ps
  induction ps with
  | nil =>
    intro _ b
    simp [followSeq]
  | cons q qs ih =>
    intro hmem b
    obtain ⟨hq1, hq2⟩ := hmem q (List.mem_cons_self q qs)
    have hrest : ∀ x ∈ qs, x.1 = 0 ∧ x.2 < n :=
      fun x hx => hmem x (List.mem_cons_of_mem q hx)
    have hfp := followPtr_amp n d p hd hp hnz capCount fuel b q.2 hq2
    rw [followSeq, hq1, hfp]
    by_cases hb : d + p ≤ b
    · rw [if_pos hb]
      simp only
      rw [ih hrest (b - (d + p)), List.length_cons, Nat.succ_mul]
      generalize qs.length * (d + p) = K
      by_cases hK : K + (d + p) ≤ b
      · rw [if_pos (by omega), if_pos (by omega)]
        congr 1
        omega
      · rw [if_neg (by omega), if_neg (by omega)]
    · rw [if_neg hb]
      simp only
      rw [List.length_cons, Nat.succ_mul]
      generalize qs.length * (d + p) = K
      rw [if_neg (by omega)]

/-- C4: charging words against the reader arena's traversal budget fails
with a decode error of kind `Failed` once the budget is exhausted: a
message holding a list of `n` far pointers all targeting the same struct
of `d + p` words is rejected with a decode error, rather than completing,
as soon as `n * (d + p)` exceeds the configured traversal word limit. -/
theorem traversal_budget_enforced (n d p limit : Nat)
    (hd : d < 2 ^ 16) (hp : p < 2 ^ 16) (hlim : limit < n * (d + p)) :
    followSeq (ampMsg n d p) 0 64 ((List.range n).map (fun j => (0, j)))
        limit = Except.error readLimitError ∧
      readLimitError.kind = ErrorKind.Failed := by
  have hnz : d + p ≠ 0 := by
    intro h0
    rw [h0, Nat.mul_zero] at hlim
    omega
  have hmem : ∀ q ∈ (List.range n).map (fun j => ((0 : Nat), j)),
      q.1 = 0 ∧ q.2 < n := by
    intro q hq
    rcases List.mem_map.mp hq with ⟨j, hj, rfl⟩
    exact ⟨rfl, List.mem_range.mp hj⟩
  have h64 : (64 : Nat) = 63 + 1 := rfl
  rw [h64, followSeq_amp n d p hd hp hnz 0 63 _ hmem limit,
    List.length_map, List.length_range, if_neg (Nat.not_le.mpr hlim)]
  exact ⟨rfl, rfl⟩

theorem traversal_budget_enforced_witness :
    followSeq (ampMsg 2 1 0) 0 64 ((List.range 2).map (fun j => (0, j))) 1 =
        Except.error readLimitError ∧
      readLimitError.kind = ErrorKind.Failed :=
  traversal_budget_enforced 2 1 0 1 (by decide) (by decide) (by decide)
